import Mathlib

/-!
# Verification of the `uncased` string library

A shallow embedding of the `uncased` crate: case-preserving,
ASCII-case-insensitive string views (`UncasedStr`) and owned-or-borrowed
values (`Uncased`).

A Rust `str` is modelled as a `List Char` — its sequence of Unicode scalar
values — and its byte representation is recovered by an explicit UTF-8
encoder, since the library's equality and hashing operate on bytes while its
ordering operates on characters.
-/

namespace Uncased

/-- Model of `u8::to_ascii_lowercase`: bytes `b'A'..=b'Z'` map to `b'a'..=b'z'`,
all other bytes are unchanged. -/
def u8ToLower (b : Nat) : Nat :=
  if 65 ≤ b ∧ b ≤ 90 then b + 32 else b

/-- Model of `char::to_ascii_lowercase`: characters `'A'..='Z'` map to `'a'..='z'`,
all other characters are unchanged. -/
def charToLower (c : Char) : Char :=
  if 65 ≤ c.toNat ∧ c.toNat ≤ 90 then Char.ofNat (c.toNat + 32) else c

/-- The UTF-8 encoding of a single Unicode scalar value, as a list of bytes
(each a `Nat` below 256). This models how Rust's `str` stores a `char`. -/
def utf8EncodeChar (c : Char) : List Nat :=
  if c.toNat < 128 then [c.toNat]
  else if c.toNat < 2048 then [192 + c.toNat / 64, 128 + c.toNat % 64]
  else if c.toNat < 65536 then
    [224 + c.toNat / 4096, 128 + (c.toNat / 64) % 64, 128 + c.toNat % 64]
  else
    [240 + c.toNat / 262144, 128 + (c.toNat / 4096) % 64,
      128 + (c.toNat / 64) % 64, 128 + c.toNat % 64]

/-- The UTF-8 byte representation of a `str` (`str::as_bytes`). -/
def utf8Encode : List Char → List Nat
  | [] => []
  | c :: cs => utf8EncodeChar c ++ utf8Encode cs

/-- Model of `str::len`: the length of a string in bytes. -/
def byteLen (s : List Char) : Nat :=
  (utf8Encode s).length

/-- Model of `<[u8]>::eq_ignore_ascii_case`: equal length, and at every position the
two bytes agree after ASCII lowercasing. -/
def bytesEqIgnoreAsciiCase (xs ys : List Nat) : Bool :=
  xs.length == ys.length &&
    (xs.zip ys).all fun p => u8ToLower p.1 == u8ToLower p.2

/-- Model of `str::eq_ignore_ascii_case`, the body of `PartialEq for UncasedStr`:
byte-level ASCII-case-insensitive equality of the two strings. -/
def uncasedEq (a b : List Char) : Bool :=
  bytesEqIgnoreAsciiCase (utf8Encode a) (utf8Encode b)

/-- Model of `UncasedStr::new`: a `repr(transparent)` relabelling of the borrowed
string; the character data is untouched. -/
def UncasedStr.new (s : List Char) : List Char := s

/-- Model of `UncasedStr::as_str`: returns the wrapped string unchanged. -/
def UncasedStr.as_str (v : List Char) : List Char := v

/-- The free function `uncased::eq`: routes both inputs through
`UncasedStr::new` and compares with `PartialEq for UncasedStr`. -/
def libEq (s1 s2 : List Char) : Bool :=
  uncasedEq (UncasedStr.new s1) (UncasedStr.new s2)

/-- Model of `Iterator::cmp` on two character sequences, comparing characters by
scalar value (the `Ord` instance of `char`): lexicographic, with the
shorter sequence less when one is a strict prefix of the other. -/
def cmpChars : List Char → List Char → Ordering
  | [], [] => .eq
  | [], _ :: _ => .lt
  | _ :: _, [] => .gt
  | a :: as, b :: bs =>
    if a.toNat < b.toNat then .lt
    else if b.toNat < a.toNat then .gt
    else cmpChars as bs

/-- Model of `Ord for UncasedStr`: lexicographic comparison of the two character
sequences with every character ASCII-lowercased first. -/
def uncasedCmp (a b : List Char) : Ordering :=
  cmpChars (a.map charToLower) (b.map charToLower)

/-- The byte sequence that `Hash for UncasedStr` feeds to the hasher:
every byte of the string, ASCII-lowercased, in order. -/
def hashFeed (s : List Char) : List Nat :=
  (utf8Encode s).map u8ToLower

/-- Model of `Hash for UncasedStr` run against an arbitrary hasher, modelled as a
state type `σ` with a `write_u8` transition `f`: each byte of the string is
ASCII-lowercased and written to the hasher in sequence order. -/
def uncasedHash {σ : Type _} (f : σ → Nat → σ) (init : σ) (s : List Char) : σ :=
  (utf8Encode s).foldl (fun st b => f st (u8ToLower b)) init

/-- Taking the first `n` BYTES of a string, as `&s[..n]` does: returns the
characters wholly covered when byte index `n` lies on a character boundary
(and within bounds), and `none` (a panic in Rust) otherwise. -/
def takeBytes : List Char → Nat → Option (List Char)
  | _, 0 => some []
  | [], _ + 1 => none
  | c :: cs, n + 1 =>
    if (utf8EncodeChar c).length ≤ n + 1 then
      match takeBytes cs (n + 1 - (utf8EncodeChar c).length) with
      | some w => some (c :: w)
      | none => none
    else none

/-- Dropping the first `n` BYTES of a string, as `&s[n..]` does: `none`
models the panic on a non-boundary or out-of-range index. -/
def dropBytes : List Char → Nat → Option (List Char)
  | cs, 0 => some cs
  | [], _ + 1 => none
  | c :: cs, n + 1 =>
    if (utf8EncodeChar c).length ≤ n + 1 then
      dropBytes cs (n + 1 - (utf8EncodeChar c).length)
    else none

/-- Model of `Index<Range> for UncasedStr` (`&self.as_str()[i..j]` re-wrapped as an
`UncasedStr`): the byte sub-range `i..j` of the original text; `none`
models the panic on an invalid range. -/
def UncasedStr.index (s : List Char) (i j : Nat) : Option (List Char) :=
  if i ≤ j then
    match dropBytes s i with
    | some t => takeBytes t (j - i)
    | none => none
  else none

/-- Model of `UncasedStr::starts_with`:
`self.len() >= string.len() && self[..string.len()] == string`. The length
guard is evaluated first; when it passes, the byte-range slice
`self[..string.len()]` is taken (which panics — `none` — off a character
boundary) and compared case-insensitively with the prefix. -/
def starts_with (v p : List Char) : Option Bool :=
  if byteLen p ≤ byteLen v then
    match takeBytes v (byteLen p) with
    | some w => some (uncasedEq w p)
    | none => none
  else some false

/-- Model of `alloc::borrow::Cow<str>`: either a borrowed `&str` or an owned
`String`. -/
inductive Cow where
  | Borrowed (s : List Char)
  | Owned (s : List Char)

/-- Model of `Borrow<str> for Cow<str>`: a reference to the active branch's text. -/
def Cow.borrow : Cow → List Char
  | .Borrowed s => s
  | .Owned s => s

/-- Model of `Cow::into_owned`: the owned text (cloning the borrowed branch). -/
def Cow.into_owned : Cow → List Char
  | .Borrowed s => s
  | .Owned s => s

/-- Model of `uncased::Uncased`: an owned-or-borrowed case-insensitive string,
a struct around a `Cow<str>`. -/
structure UncasedVal where
  string : Cow

/-- Model of `Uncased::from_borrowed`. -/
def UncasedVal.from_borrowed (s : List Char) : UncasedVal :=
  ⟨.Borrowed s⟩

/-- Model of `Uncased::from_owned`. -/
def UncasedVal.from_owned (s : List Char) : UncasedVal :=
  ⟨.Owned s⟩

/-- Model of `Uncased::into_string`: `self.string.into_owned()`. -/
def UncasedVal.into_string (u : UncasedVal) : List Char :=
  u.string.into_owned

/-- Model of `Deref` and `AsRef<UncasedStr> for Uncased`:
`UncasedStr::new(self.string.borrow())`. -/
def UncasedVal.as_ref (u : UncasedVal) : List Char :=
  UncasedStr.new u.string.borrow

/-- Model of `PartialEq for Uncased`: `self.as_ref().eq(other.as_ref())`. -/
def UncasedVal.eq (a b : UncasedVal) : Bool :=
  uncasedEq a.as_ref b.as_ref

/-- Model of `Ord for Uncased`: `self.as_ref().cmp(other.as_ref())`. -/
def UncasedVal.cmp (a b : UncasedVal) : Ordering :=
  uncasedCmp a.as_ref b.as_ref

/-- Model of `Hash for Uncased`: `self.as_ref().hash(hasher)`. -/
def UncasedVal.hash {σ : Type _} (f : σ → Nat → σ) (init : σ) (u : UncasedVal) : σ :=
  uncasedHash f init u.as_ref

/-- The class of a UTF-8 byte: `1`–`4` when it can open a character encoding
of that many bytes, `0` otherwise. -/
def byteClass (b : Nat) : Nat :=
  if b < 128 then 1
  else if b < 194 then 0
  else if b < 224 then 2
  else if b < 240 then 3
  else if b < 245 then 4
  else 0

/-- Byte index `n` lies on a character boundary of `s` (including the two
ends): some character-level prefix of `s` occupies exactly `n` bytes. -/
def isCharBoundary (s : List Char) (n : Nat) : Prop :=
  ∃ k, (utf8Encode (s.take k)).length = n

/-- Insert into a sorted list, for insertion sort by a comparator. -/
def insertLe {α : Type _} (le : α → α → Bool) (x : α) : List α → List α
  | [] => [x]
  | y :: ys => if le x y then x :: y :: ys else y :: insertLe le x ys

/-- Insertion sort by a `Bool`-valued "less or equal" comparator. -/
def sortLe {α : Type _} (le : α → α → Bool) : List α → List α
  | [] => []
  | x :: xs => insertLe le x (sortLe le xs)

/-- The "less or equal" comparator induced by `Ord for UncasedStr`
(`cmp` not returning `Greater`). -/
def uncasedLe (a b : List Char) : Bool :=
  match uncasedCmp a b with
  | .gt => false
  | _ => true

/-! ## Basic facts about characters and UTF-8 encoding -/

theorem char_toNat_lt (c : Char) : c.toNat < 1114112 := by
  have h := c.valid
  rcases h with h | ⟨h1, h2⟩ <;> simp [Char.toNat] at * <;> omega

theorem char_eq_of_toNat_eq {a b : Char} (h : a.toNat = b.toNat) : a = b :=
  Char.eq_of_val_eq (UInt32.ext h)

theorem charOfNat_toNat_of_le {n : Nat} (h1 : 97 ≤ n) (h2 : n ≤ 122) :
    (Char.ofNat n).toNat = n := by
  interval_cases n <;> decide

theorem charToLower_toNat (c : Char) : (charToLower c).toNat = u8ToLower c.toNat := by
  unfold charToLower u8ToLower
  split_ifs with h
  · exact charOfNat_toNat_of_le (by omega) (by omega)
  · rfl

theorem utf8EncodeChar_ne_nil (c : Char) : utf8EncodeChar c ≠ [] := by
  unfold utf8EncodeChar
  split_ifs <;> simp

theorem byteClass_encodeChar (c : Char) :
    byteClass ((utf8EncodeChar c).headD 0) = (utf8EncodeChar c).length := by
  have ha := char_toNat_lt c
  unfold utf8EncodeChar
  split_ifs with h1 h2 h3 <;>
    simp only [List.headD_cons, List.length_cons, List.length_nil] <;>
    unfold byteClass <;> split_ifs <;> omega

theorem byteClass_u8ToLower (b : Nat) : byteClass (u8ToLower b) = byteClass b := by
  unfold u8ToLower byteClass
  split_ifs <;> omega

theorem headD_append (xs ys : List Nat) (d : Nat) (h : xs ≠ []) :
    (xs ++ ys).headD d = xs.headD d := by
  cases xs with
  | nil => exact absurd rfl h
  | cons x xs' => simp

theorem utf8EncodeChar_inj {a b : Char} (h : utf8EncodeChar a = utf8EncodeChar b) :
    a = b := by
  have ha := char_toNat_lt a
  have hb := char_toNat_lt b
  unfold utf8EncodeChar at h
  split_ifs at h <;> simp at h <;> exact char_eq_of_toNat_eq (by omega)

theorem utf8EncodeChar_append_inj {a b : Char} {r t : List Nat}
    (h : utf8EncodeChar a ++ r = utf8EncodeChar b ++ t) : a = b ∧ r = t := by
  have hhead : (utf8EncodeChar a).headD 0 = (utf8EncodeChar b).headD 0 := by
    rw [← headD_append (utf8EncodeChar a) r 0 (utf8EncodeChar_ne_nil a),
      ← headD_append (utf8EncodeChar b) t 0 (utf8EncodeChar_ne_nil b), h]
  have hlen : (utf8EncodeChar a).length = (utf8EncodeChar b).length := by
    have c1 := byteClass_encodeChar a
    have c2 := byteClass_encodeChar b
    rw [hhead] at c1
    omega
  obtain ⟨h1, h2⟩ := List.append_inj h hlen
  exact ⟨utf8EncodeChar_inj h1, h2⟩

theorem utf8Encode_inj {s t : List Char} (h : utf8Encode s = utf8Encode t) : s = t := by
  induction s generalizing t with
  | nil =>
    cases t with
    | nil => rfl
    | cons d ds =>
      exfalso
      have hne := utf8EncodeChar_ne_nil d
      simp only [utf8Encode] at h
      rcases List.append_eq_nil.mp h.symm with ⟨h1, -⟩
      exact hne h1
  | cons c cs ih =>
    cases t with
    | nil =>
      exfalso
      have hne := utf8EncodeChar_ne_nil c
      simp only [utf8Encode] at h
      rcases List.append_eq_nil.mp h with ⟨h1, -⟩
      exact hne h1
    | cons d ds =>
      simp only [utf8Encode] at h
      obtain ⟨h1, h2⟩ := utf8EncodeChar_append_inj h
      rw [h1, ih h2]

theorem utf8Encode_append (s t : List Char) :
    utf8Encode (s ++ t) = utf8Encode s ++ utf8Encode t := by
  induction s with
  | nil => rfl
  | cons c cs ih => simp [utf8Encode, ih]

theorem u8ToLower_encodeChar (c : Char) :
    (utf8EncodeChar c).map u8ToLower = utf8EncodeChar (charToLower c) := by
  have ha := char_toNat_lt c
  have hlow := charToLower_toNat c
  by_cases h : 65 ≤ c.toNat ∧ c.toNat ≤ 90
  · have h2 : (charToLower c).toNat = c.toNat + 32 := by
      rw [hlow]
      unfold u8ToLower
      rw [if_pos h]
    rw [utf8EncodeChar, utf8EncodeChar, h2]
    rw [if_pos (by omega : c.toNat < 128), if_pos (by omega : c.toNat + 32 < 128)]
    simp only [List.map_cons, List.map_nil]
    unfold u8ToLower
    rw [if_pos h]
  · have h2 : charToLower c = c := by
      unfold charToLower
      rw [if_neg h]
    rw [h2]
    unfold utf8EncodeChar
    split_ifs with h1 h2' h3' <;> simp only [List.map_cons, List.map_nil] <;>
      unfold u8ToLower <;>
      (repeat rw [if_neg (by omega)])

theorem u8ToLower_encode (s : List Char) :
    (utf8Encode s).map u8ToLower = utf8Encode (s.map charToLower) := by
  induction s with
  | nil => rfl
  | cons c cs ih => simp [utf8Encode, List.map_append, ih, u8ToLower_encodeChar]

theorem bytesEqIgnoreAsciiCase_iff_map {xs ys : List Nat} :
    bytesEqIgnoreAsciiCase xs ys = true ↔ xs.map u8ToLower = ys.map u8ToLower := by
  induction xs generalizing ys with
  | nil => cases ys <;> simp [bytesEqIgnoreAsciiCase]
  | cons x xs' ih =>
    cases ys with
    | nil => simp [bytesEqIgnoreAsciiCase]
    | cons y ys' =>
      constructor
      · intro h
        unfold bytesEqIgnoreAsciiCase at h
        simp only [List.length_cons, List.zip_cons_cons, List.all_cons, Bool.and_eq_true,
          beq_iff_eq, List.all_eq_true] at h
        obtain ⟨hlen, hxy, hall⟩ := h
        simp only [List.map_cons, List.cons.injEq]
        refine ⟨hxy, ih.mp ?_⟩
        unfold bytesEqIgnoreAsciiCase
        simp only [Bool.and_eq_true, beq_iff_eq, List.all_eq_true]
        exact ⟨by omega, hall⟩
      · intro h
        simp only [List.map_cons, List.cons.injEq] at h
        obtain ⟨hxy, htl⟩ := h
        have h2 := ih.mpr htl
        unfold bytesEqIgnoreAsciiCase at h2 ⊢
        simp only [Bool.and_eq_true, beq_iff_eq, List.all_eq_true, List.length_cons,
          List.zip_cons_cons, List.all_cons] at h2 ⊢
        obtain ⟨hlen, hall⟩ := h2
        exact ⟨by omega, hxy, hall⟩

theorem uncasedEq_iff_fold {a b : List Char} :
    uncasedEq a b = true ↔ a.map charToLower = b.map charToLower := by
  rw [uncasedEq, bytesEqIgnoreAsciiCase_iff_map, u8ToLower_encode, u8ToLower_encode]
  exact ⟨fun h => utf8Encode_inj h, fun h => by rw [h]⟩

/-! ## Facts about lexicographic character comparison -/

theorem cmpChars_swap (xs ys : List Char) : cmpChars xs ys = (cmpChars ys xs).swap := by
  induction xs generalizing ys with
  | nil => cases ys <;> simp [cmpChars, Ordering.swap]
  | cons x xs' ih =>
    cases ys with
    | nil => simp [cmpChars, Ordering.swap]
    | cons y ys' =>
      unfold cmpChars
      by_cases h1 : x.toNat < y.toNat
      · rw [if_pos h1, if_neg (by omega), if_pos h1]
        rfl
      · by_cases h2 : y.toNat < x.toNat
        · rw [if_neg h1, if_pos h2, if_pos h2]
          rfl
        · rw [if_neg h1, if_neg h2, if_neg h2, if_neg h1]
          exact ih ys'

theorem cmpChars_lt_trans {xs ys zs : List Char} (h1 : cmpChars xs ys = .lt)
    (h2 : cmpChars ys zs = .lt) : cmpChars xs zs = .lt := by
  induction xs generalizing ys zs with
  | nil =>
    cases ys with
    | nil => simp [cmpChars] at h1
    | cons y ys' =>
      cases zs with
      | nil => simp [cmpChars] at h2
      | cons z zs' => simp [cmpChars]
  | cons x xs' ih =>
    cases ys with
    | nil => simp [cmpChars] at h1
    | cons y ys' =>
      cases zs with
      | nil => simp [cmpChars] at h2
      | cons z zs' =>
        unfold cmpChars at h1 h2 ⊢
        split_ifs at h1 with hxy hyx
        · split_ifs at h2 with hyz hzy
          · rw [if_pos (by omega)]
          · rw [if_pos (by omega)]
        · split_ifs at h2 with hyz hzy
          · rw [if_pos (by omega)]
          · rw [if_neg (by omega), if_neg (by omega)]
            exact ih h1 h2

theorem cmpChars_eq_iff {xs ys : List Char} : cmpChars xs ys = .eq ↔ xs = ys := by
  induction xs generalizing ys with
  | nil => cases ys <;> simp [cmpChars]
  | cons x xs' ih =>
    cases ys with
    | nil => simp [cmpChars]
    | cons y ys' =>
      unfold cmpChars
      split_ifs with h1 h2
      · have hne : x ≠ y := fun he => by rw [he] at h1; omega
        simp only [List.cons.injEq]
        constructor
        · intro h
          exact absurd h (by decide)
        · rintro ⟨h, -⟩
          exact absurd h hne
      · have hne : x ≠ y := fun he => by rw [he] at h2; omega
        simp only [List.cons.injEq]
        constructor
        · intro h
          exact absurd h (by decide)
        · rintro ⟨h, -⟩
          exact absurd h hne
      · have hxy : x = y := char_eq_of_toNat_eq (by omega)
        subst hxy
        simp [ih]

theorem cmpChars_first_diff {xs ys : List Char} {i : Nat} (d : Char)
    (hi : i < xs.length) (hj : i < ys.length)
    (htake : xs.take i = ys.take i) (hne : xs.getD i d ≠ ys.getD i d) :
    cmpChars xs ys = if (xs.getD i d).toNat < (ys.getD i d).toNat then .lt else .gt := by
  induction xs generalizing ys i with
  | nil => simp at hi
  | cons x xs' ih =>
    cases ys with
    | nil => simp at hj
    | cons y ys' =>
      cases i with
      | zero =>
        simp only [List.getD_cons_zero] at hne ⊢
        have hne' : x.toNat ≠ y.toNat := fun he => hne (char_eq_of_toNat_eq he)
        unfold cmpChars
        by_cases h1 : x.toNat < y.toNat
        · rw [if_pos h1, if_pos h1]
        · rw [if_neg h1, if_pos (by omega), if_neg h1]
      | succ n =>
        simp only [List.take_succ_cons, List.cons.injEq] at htake
        obtain ⟨hx, ht⟩ := htake
        subst hx
        simp only [List.getD_cons_succ] at hne ⊢
        simp only [List.length_cons] at hi hj
        unfold cmpChars
        rw [if_neg (by omega), if_neg (by omega)]
        exact ih (by omega) (by omega) ht hne

/-! ## Facts about byte-range slicing -/

theorem encodeChar_length_pos (c : Char) : 1 ≤ (utf8EncodeChar c).length := by
  cases h : utf8EncodeChar c with
  | nil => exact absurd h (utf8EncodeChar_ne_nil c)
  | cons b bs => simp

theorem takeBytes_zero (s : List Char) : takeBytes s 0 = some [] := by
  cases s <;> rfl

theorem takeBytes_sound {s : List Char} {n : Nat} {w : List Char}
    (h : takeBytes s n = some w) :
    ∃ t, s = w ++ t ∧ (utf8Encode w).length = n := by
  induction s generalizing n w with
  | nil =>
    cases n with
    | zero =>
      rw [takeBytes_zero] at h
      obtain rfl : ([] : List Char) = w := by injection h
      exact ⟨[], rfl, rfl⟩
    | succ m => exact absurd h (by simp [takeBytes])
  | cons c cs ih =>
    cases n with
    | zero =>
      rw [takeBytes_zero] at h
      obtain rfl : ([] : List Char) = w := by injection h
      exact ⟨c :: cs, rfl, rfl⟩
    | succ m =>
      unfold takeBytes at h
      split_ifs at h with hle
      · cases htk : takeBytes cs (m + 1 - (utf8EncodeChar c).length) with
        | none => rw [htk] at h; exact absurd h (by simp)
        | some w' =>
          rw [htk] at h
          obtain rfl : c :: w' = w := by injection h
          obtain ⟨t, hsplit, hlen⟩ := ih htk
          refine ⟨t, by rw [hsplit]; rfl, ?_⟩
          simp only [utf8Encode, List.length_append]
          omega

theorem takeBytes_complete {s : List Char} {k n : Nat}
    (h : (utf8Encode (s.take k)).length = n) :
    ∃ w, takeBytes s n = some w := by
  induction s generalizing k n with
  | nil =>
    simp only [List.take_nil, utf8Encode, List.length_nil] at h
    exact ⟨[], by rw [← h, takeBytes_zero]⟩
  | cons c cs ih =>
    cases k with
    | zero =>
      simp only [List.take_zero, utf8Encode, List.length_nil] at h
      exact ⟨[], by rw [← h, takeBytes_zero]⟩
    | succ k' =>
      simp only [List.take_succ_cons, utf8Encode, List.length_append] at h
      have hpos := encodeChar_length_pos c
      cases n with
      | zero => omega
      | succ m =>
        obtain ⟨w', hw'⟩ := ih (k := k') (by omega :
          (utf8Encode (cs.take k')).length = m + 1 - (utf8EncodeChar c).length)
        refine ⟨c :: w', ?_⟩
        unfold takeBytes
        rw [if_pos (by omega), hw']

theorem dropBytes_isSome_eq {s : List Char} {n : Nat} :
    (dropBytes s n).isSome = (takeBytes s n).isSome := by
  induction s generalizing n with
  | nil => cases n <;> simp [dropBytes, takeBytes]
  | cons c cs ih =>
    cases n with
    | zero => simp [dropBytes, takeBytes_zero]
    | succ m =>
      unfold dropBytes takeBytes
      split_ifs with hle
      · rw [ih]
        cases htk : takeBytes cs (m + 1 - (utf8EncodeChar c).length) <;> simp [htk]
      · simp

theorem dropBytes_sound {s : List Char} {n : Nat} {t : List Char}
    (h : dropBytes s n = some t) :
    ∃ w, s = w ++ t ∧ (utf8Encode w).length = n := by
  induction s generalizing n t with
  | nil =>
    cases n with
    | zero =>
      obtain rfl : ([] : List Char) = t := by injection h
      exact ⟨[], rfl, rfl⟩
    | succ m => exact absurd h (by simp [dropBytes])
  | cons c cs ih =>
    cases n with
    | zero =>
      obtain rfl : c :: cs = t := by injection h
      exact ⟨[], rfl, rfl⟩
    | succ m =>
      unfold dropBytes at h
      split_ifs at h with hle
      · obtain ⟨w', hsplit, hlen⟩ := ih h
        refine ⟨c :: w', by rw [hsplit]; rfl, ?_⟩
        simp only [utf8Encode, List.length_append]
        omega

theorem headD_map_u8 (xs : List Nat) :
    (xs.map u8ToLower).headD 0 = u8ToLower (xs.headD 0) := by
  cases xs with
  | nil => simp [u8ToLower]
  | cons x xs' => simp

theorem headD_take {xs : List Nat} {n : Nat} (hn : 1 ≤ n) (d : Nat) :
    (xs.take n).headD d = xs.headD d := by
  cases xs with
  | nil => simp
  | cons x xs' =>
    cases n with
    | zero => omega
    | succ m => simp

theorem byteLen_cons (c : Char) (cs : List Char) :
    byteLen (c :: cs) = (utf8EncodeChar c).length + byteLen cs := by
  simp [byteLen, utf8Encode]

theorem takeBytes_of_fold_take {p v : List Char}
    (h : ((utf8Encode v).take (byteLen p)).map u8ToLower =
      (utf8Encode p).map u8ToLower) :
    ∃ w, takeBytes v (byteLen p) = some w ∧
      (utf8Encode w).map u8ToLower = (utf8Encode p).map u8ToLower := by
  induction p generalizing v with
  | nil =>
    refine ⟨[], ?_, rfl⟩
    have h0 : byteLen ([] : List Char) = 0 := rfl
    rw [h0, takeBytes_zero]
  | cons d ds ih =>
    have hblen := byteLen_cons d ds
    have hLd := encodeChar_length_pos d
    have hlen : byteLen (d :: ds) ≤ byteLen v := by
      have hl := congrArg List.length h
      simp only [List.length_map, List.length_take] at hl
      have hmin : byteLen (d :: ds) ⊓ (utf8Encode v).length = byteLen (d :: ds) := by
        exact hl.trans rfl
      have := min_le_right (byteLen (d :: ds)) ((utf8Encode v).length)
      rw [hmin] at this
      exact this
    obtain ⟨c, cs, rfl⟩ : ∃ c cs, v = c :: cs := by
      cases v with
      | nil =>
        exfalso
        have hv0 : byteLen ([] : List Char) = 0 := rfl
        rw [hv0] at hlen
        omega
      | cons c cs => exact ⟨c, cs, rfl⟩
    have hLc := encodeChar_length_pos c
    have hhead : u8ToLower ((utf8EncodeChar c).headD 0) =
        u8ToLower ((utf8EncodeChar d).headD 0) := by
      have h0 := congrArg (fun l => l.headD 0) h
      simp only [headD_map_u8] at h0
      rw [headD_take (by omega) 0] at h0
      have e1 : utf8Encode (c :: cs) = utf8EncodeChar c ++ utf8Encode cs := rfl
      have e2 : utf8Encode (d :: ds) = utf8EncodeChar d ++ utf8Encode ds := rfl
      rw [e1, e2, headD_append _ _ _ (utf8EncodeChar_ne_nil c),
        headD_append _ _ _ (utf8EncodeChar_ne_nil d)] at h0
      exact h0
    have hlen_cd : (utf8EncodeChar c).length = (utf8EncodeChar d).length := by
      have b1 := byteClass_encodeChar c
      have b2 := byteClass_encodeChar d
      have hc := congrArg byteClass hhead
      rw [byteClass_u8ToLower, byteClass_u8ToLower] at hc
      omega
    have htake : (utf8Encode (c :: cs)).take (byteLen (d :: ds)) =
        utf8EncodeChar c ++ (utf8Encode cs).take (byteLen ds) := by
      have e1 : utf8Encode (c :: cs) = utf8EncodeChar c ++ utf8Encode cs := rfl
      have hb : byteLen (d :: ds) = (utf8EncodeChar c).length + byteLen ds := by
        omega
      rw [e1, hb, List.take_append]
    rw [htake] at h
    have e2 : utf8Encode (d :: ds) = utf8EncodeChar d ++ utf8Encode ds := rfl
    rw [e2] at h
    simp only [List.map_append] at h
    have hsplit := List.append_inj h (by simp [hlen_cd])
    obtain ⟨w', hw', hmap⟩ := ih (v := cs) hsplit.2
    refine ⟨c :: w', ?_, ?_⟩
    · obtain ⟨m, hm⟩ : ∃ m, byteLen (d :: ds) = m + 1 := ⟨byteLen (d :: ds) - 1, by omega⟩
      rw [hm]
      unfold takeBytes
      rw [if_pos (by omega)]
      have harg : m + 1 - (utf8EncodeChar c).length = byteLen ds := by omega
      rw [harg, hw']
    · have e3 : utf8Encode (c :: w') = utf8EncodeChar c ++ utf8Encode w' := rfl
      rw [e3, e2]
      simp only [List.map_append, hsplit.1, hmap]

theorem map_eq_iff_getD {xs ys : List Nat} {f : Nat → Nat} :
    xs.map f = ys.map f ↔
      (xs.length = ys.length ∧
        ∀ i, i < xs.length → f (xs.getD i 0) = f (ys.getD i 0)) := by
  constructor
  · intro h
    have hlen : xs.length = ys.length := by
      have h1 := congrArg List.length h
      simpa using h1
    refine ⟨hlen, fun i hi => ?_⟩
    have hxi : i < (xs.map f).length := by simpa using hi
    have hyi : i < (ys.map f).length := by simp only [List.length_map]; omega
    have e1 : (xs.map f).getD i 0 = f (xs.getD i 0) := by
      rw [List.getD_eq_getElem _ _ hxi, List.getElem_map,
        List.getD_eq_getElem _ _ hi]
    have e2 : (ys.map f).getD i 0 = f (ys.getD i 0) := by
      rw [List.getD_eq_getElem _ _ hyi, List.getElem_map,
        List.getD_eq_getElem _ _ (show i < ys.length by omega)]
    rw [← e1, ← e2, h]
  · rintro ⟨hlen, hpt⟩
    refine List.ext_getElem (by simpa using hlen) fun n h1 h2 => ?_
    simp only [List.getElem_map]
    have hn : n < xs.length := by simpa using h1
    have hn' : n < ys.length := by simpa using h2
    have hp := hpt n hn
    rwa [List.getD_eq_getElem _ _ hn, List.getD_eq_getElem _ _ hn'] at hp

theorem uncasedHash_eq_foldl {σ : Type _} (f : σ → Nat → σ) (init : σ) (s : List Char) :
    uncasedHash f init s = (hashFeed s).foldl f init := by
  rw [uncasedHash, hashFeed, List.foldl_map]

theorem uncasedHash_congr {σ : Type _} (f : σ → Nat → σ) (init : σ) {a b : List Char}
    (h : uncasedEq a b = true) : uncasedHash f init a = uncasedHash f init b := by
  have hm := bytesEqIgnoreAsciiCase_iff_map.mp h
  rw [uncasedHash_eq_foldl, uncasedHash_eq_foldl, hashFeed, hashFeed, hm]

/-! ## Soundness and completeness of byte-range indexing -/

theorem enc_take_le (s : List Char) (k : Nat) :
    (utf8Encode (s.take k)).length ≤ (utf8Encode s).length := by
  conv_rhs => rw [← List.take_append_drop k s]
  rw [utf8Encode_append, List.length_append]
  omega

theorem index_sound {s : List Char} {i j : Nat} {w : List Char}
    (h : UncasedStr.index s i j = some w) :
    i ≤ j ∧ isCharBoundary s i ∧ isCharBoundary s j ∧
      utf8Encode w = ((utf8Encode s).drop i).take (j - i) := by
  unfold UncasedStr.index at h
  split_ifs at h with hij
  cases hd : dropBytes s i with
  | none => rw [hd] at h; exact absurd h (by simp)
  | some t =>
    rw [hd] at h
    obtain ⟨w1, rfl, hl1⟩ := dropBytes_sound hd
    obtain ⟨t2, ht, hl2⟩ := takeBytes_sound h
    subst ht
    refine ⟨hij, ⟨w1.length, ?_⟩, ⟨w1.length + w.length, ?_⟩, ?_⟩
    · rw [List.take_left]
      exact hl1
    · rw [List.take_append, List.take_left, utf8Encode_append, List.length_append]
      omega
    · have hdi : (utf8Encode (w1 ++ (w ++ t2))).drop i =
          utf8Encode w ++ utf8Encode t2 := by
        rw [utf8Encode_append, utf8Encode_append, ← hl1, List.drop_left]
      rw [hdi, ← hl2, List.take_left]

theorem index_complete {s : List Char} {i j : Nat} (hij : i ≤ j)
    (hi : isCharBoundary s i) (hj : isCharBoundary s j) :
    ∃ w, UncasedStr.index s i j = some w := by
  obtain ⟨ki, hki⟩ := hi
  obtain ⟨kj, hkj⟩ := hj
  obtain ⟨w0, hw0⟩ := takeBytes_complete hki
  have hds : (dropBytes s i).isSome := by
    rw [dropBytes_isSome_eq, hw0]
    rfl
  obtain ⟨t, ht⟩ := Option.isSome_iff_exists.mp hds
  obtain ⟨w1, rfl, hl1⟩ := dropBytes_sound ht
  have hbt : ∃ k, (utf8Encode (t.take k)).length = j - i := by
    by_cases hcmp : kj ≤ w1.length
    · have hle : (utf8Encode ((w1 ++ t).take kj)).length ≤ i := by
        rw [List.take_append_of_le_length hcmp]
        calc (utf8Encode (w1.take kj)).length
            ≤ (utf8Encode w1).length := enc_take_le w1 kj
          _ = i := hl1
      rw [hkj] at hle
      refine ⟨0, ?_⟩
      simp only [List.take_zero]
      show (utf8Encode []).length = j - i
      simp only [utf8Encode, List.length_nil]
      omega
    · push_neg at hcmp
      have hksplit : kj = w1.length + (kj - w1.length) := by omega
      rw [hksplit, List.take_append, utf8Encode_append, List.length_append, hl1] at hkj
      exact ⟨kj - w1.length, by omega⟩
  obtain ⟨kt, hkt⟩ := hbt
  obtain ⟨w2, hw2⟩ := takeBytes_complete hkt
  refine ⟨w2, ?_⟩
  unfold UncasedStr.index
  rw [if_pos hij, ht]
  show takeBytes t (j - i) = some w2
  exact hw2

theorem cmpChars_of_take_lt {xs ys : List Char} (hlen : xs.length < ys.length)
    (htake : xs = ys.take xs.length) : cmpChars xs ys = .lt := by
  induction xs generalizing ys with
  | nil =>
    cases ys with
    | nil => simp at hlen
    | cons y ys' => simp [cmpChars]
  | cons x xs' ih =>
    cases ys with
    | nil => simp at hlen
    | cons y ys' =>
      simp only [List.length_cons, List.take_succ_cons, List.cons.injEq] at htake hlen
      obtain ⟨hx, ht⟩ := htake
      subst hx
      unfold cmpChars
      rw [if_neg (by omega), if_neg (by omega)]
      exact ih (by omega) ht


/-! ## The claims -/

/-- C1: View equality (`PartialEq for UncasedStr`, and the free function
`uncased::eq`, which routes both inputs through `UncasedStr::new` and the
same `PartialEq`) returns `true` iff the two strings have equal byte length
and at every byte position the two bytes are identical after ASCII-only
lowercasing (bytes `b'A'..=b'Z'` mapped to `b'a'..=b'z'`, all other bytes
unchanged). -/
theorem claim_C1 (a b : List Char) :
    (uncasedEq a b = true ↔
      (utf8Encode a).length = (utf8Encode b).length ∧
        ∀ i, i < (utf8Encode a).length →
          u8ToLower ((utf8Encode a).getD i 0) = u8ToLower ((utf8Encode b).getD i 0)) ∧
    libEq a b = uncasedEq a b := by
  refine ⟨?_, rfl⟩
  rw [uncasedEq, bytesEqIgnoreAsciiCase_iff_map, map_eq_iff_getD]

/-- Witness for C1 at `"Env"` vs `"eNV"`. -/
theorem claim_C1_witness :
    (utf8Encode ['E','n','v']).length = (utf8Encode ['e','N','V']).length ∧
      ∀ i, i < (utf8Encode ['E','n','v']).length →
        u8ToLower ((utf8Encode ['E','n','v']).getD i 0) =
          u8ToLower ((utf8Encode ['e','N','V']).getD i 0) :=
  (claim_C1 ['E','n','v'] ['e','N','V']).1.mp (by decide)

/-- C2: hashing a View feeds each byte of the underlying text,
ASCII-lowercased, into the hasher in sequence order; consequently two Views
that are case-insensitively equal feed the identical byte sequence to the
hasher, so their hashes agree for every hasher. -/
theorem claim_C2 :
    (∀ a b : List Char, uncasedEq a b = true → hashFeed a = hashFeed b) ∧
    (∀ (σ : Type) (f : σ → Nat → σ) (init : σ) (s : List Char),
      uncasedHash f init s = (hashFeed s).foldl f init) ∧
    (∀ (σ : Type) (f : σ → Nat → σ) (init : σ) (a b : List Char),
      uncasedEq a b = true → uncasedHash f init a = uncasedHash f init b) := by
  refine ⟨fun a b h => ?_, fun σ f init s => uncasedHash_eq_foldl f init s,
    fun σ f init a b h => uncasedHash_congr f init h⟩
  exact bytesEqIgnoreAsciiCase_iff_map.mp h

/-- Witness for C2 at `"Env"` vs `"eNV"` with a concrete hasher. -/
theorem claim_C2_witness :
    uncasedHash (fun st b => st * 256 + b) 0 ['E','n','v'] =
      uncasedHash (fun st b => st * 256 + b) 0 ['e','N','V'] :=
  claim_C2.2.2 Nat (fun st b => st * 256 + b) 0 ['E','n','v'] ['e','N','V'] (by decide)

/-- C3: `Ord::cmp` on `UncasedStr` is the lexicographic comparison of the
two character sequences with each character ASCII-lowercased: it is
antisymmetric under swapping, transitive, `Equal` exactly on fold-equal
sequences, decided by the first differing folded character, decided by
length when one folded sequence is a strict prefix of the other, and on the
concrete examples: `"abc"` vs `"ABC"` is `Equal`, `"abc"` vs `"abd"` is
`Less`, and sorting `["Banana","apple","Cherry"]` yields
`["apple","Banana","Cherry"]`. -/
theorem claim_C3 :
    (∀ a b : List Char, uncasedCmp a b = (uncasedCmp b a).swap) ∧
    (∀ a b c : List Char,
      uncasedCmp a b = .lt → uncasedCmp b c = .lt → uncasedCmp a c = .lt) ∧
    (∀ a b : List Char,
      uncasedCmp a b = .eq ↔ a.map charToLower = b.map charToLower) ∧
    (∀ (a b : List Char) (i : Nat), i < a.length → i < b.length →
      (a.map charToLower).take i = (b.map charToLower).take i →
      charToLower (a.getD i 'a') ≠ charToLower (b.getD i 'a') →
      uncasedCmp a b =
        if (charToLower (a.getD i 'a')).toNat < (charToLower (b.getD i 'a')).toNat
        then .lt else .gt) ∧
    (∀ a b : List Char, a.length < b.length →
      a.map charToLower = (b.map charToLower).take a.length →
      uncasedCmp a b = .lt) ∧
    uncasedCmp ['a','b','c'] ['A','B','C'] = .eq ∧
    uncasedCmp ['a','b','c'] ['a','b','d'] = .lt ∧
    sortLe uncasedLe
        [['B','a','n','a','n','a'], ['a','p','p','l','e'], ['C','h','e','r','r','y']] =
      [['a','p','p','l','e'], ['B','a','n','a','n','a'], ['C','h','e','r','r','y']] := by
  refine ⟨fun a b => cmpChars_swap _ _, fun a b c h1 h2 => cmpChars_lt_trans h1 h2,
    fun a b => by rw [uncasedCmp, cmpChars_eq_iff], ?_, ?_, by decide, by decide, by decide⟩
  · intro a b i hia hib htake hne
    have hia' : i < (a.map charToLower).length := by simpa using hia
    have hib' : i < (b.map charToLower).length := by simpa using hib
    have hga : (a.map charToLower).getD i 'a' = charToLower (a.getD i 'a') := by
      rw [List.getD_eq_getElem _ _ hia', List.getElem_map, List.getD_eq_getElem _ _ hia]
    have hgb : (b.map charToLower).getD i 'a' = charToLower (b.getD i 'a') := by
      rw [List.getD_eq_getElem _ _ hib', List.getElem_map, List.getD_eq_getElem _ _ hib]
    have hmain := cmpChars_first_diff 'a' hia' hib' htake (by rw [hga, hgb]; exact hne)
    rw [uncasedCmp, hmain, hga, hgb]
  · intro a b hlen htake
    exact cmpChars_of_take_lt (by simpa using hlen) (by simpa using htake)

/-- Witness for C3's first-difference clause at `"ax"` vs `"Ay"`. -/
theorem claim_C3_witness :
    uncasedCmp ['a','x'] ['A','y'] =
      (if (charToLower (['a','x'].getD 1 'a')).toNat <
          (charToLower (['A','y'].getD 1 'a')).toNat
       then .lt else .gt) :=
  claim_C3.2.2.2.1 ['a','x'] ['A','y'] 1 (by decide) (by decide) (by decide) (by decide)

/-- C4: `Uncased` (the Value type) delegates equality, ordering and hashing
entirely to the View over its active branch, so for case-insensitively
equal `s` and `t` a borrowed Value over `s` and an owned Value over `t`
compare equal, hash identically, order identically (as `Equal`, and
identically against every third Value), and each compares equal to the
View over the other's text. -/
theorem claim_C4 :
    (∀ u v : UncasedVal, UncasedVal.eq u v = uncasedEq u.as_ref v.as_ref ∧
      UncasedVal.cmp u v = uncasedCmp u.as_ref v.as_ref) ∧
    (∀ (σ : Type) (f : σ → Nat → σ) (init : σ) (u : UncasedVal),
      UncasedVal.hash f init u = uncasedHash f init u.as_ref) ∧
    (∀ s t : List Char, uncasedEq s t = true →
      UncasedVal.eq (.from_borrowed s) (.from_owned t) = true ∧
      (∀ (σ : Type) (f : σ → Nat → σ) (init : σ),
        UncasedVal.hash f init (.from_borrowed s) =
          UncasedVal.hash f init (.from_owned t)) ∧
      UncasedVal.cmp (.from_borrowed s) (.from_owned t) = .eq ∧
      (∀ w : UncasedVal,
        UncasedVal.cmp (.from_borrowed s) w = UncasedVal.cmp (.from_owned t) w ∧
        UncasedVal.eq (.from_borrowed s) w = UncasedVal.eq (.from_owned t) w) ∧
      uncasedEq (UncasedVal.from_borrowed s).as_ref t = true ∧
      uncasedEq s (UncasedVal.from_owned t).as_ref = true) := by
  refine ⟨fun u v => ⟨rfl, rfl⟩, fun σ f init u => rfl, fun s t h => ?_⟩
  have hfold : s.map charToLower = t.map charToLower := uncasedEq_iff_fold.mp h
  refine ⟨h, fun σ f init => uncasedHash_congr f init h, ?_, fun w => ⟨?_, ?_⟩, h, h⟩
  · show uncasedCmp s t = Ordering.eq
    rw [uncasedCmp]
    exact cmpChars_eq_iff.mpr hfold
  · show uncasedCmp s w.as_ref = uncasedCmp t w.as_ref
    rw [uncasedCmp, uncasedCmp, hfold]
  · show uncasedEq s w.as_ref = uncasedEq t w.as_ref
    refine Bool.eq_iff_iff.mpr ?_
    rw [uncasedEq_iff_fold, uncasedEq_iff_fold, hfold]

/-- Witness for C4 at borrowed `"Content-Type"` vs owned `"CONTENT-TYPE"`. -/
theorem claim_C4_witness :
    UncasedVal.eq
      (.from_borrowed ['C','o','n','t','e','n','t','-','T','y','p','e'])
      (.from_owned ['C','O','N','T','E','N','T','-','T','Y','P','E']) = true :=
  (claim_C4.2.2 ['C','o','n','t','e','n','t','-','T','y','p','e']
    ['C','O','N','T','E','N','T','-','T','Y','P','E'] (by decide)).1

/-- C5: constructing a View over `s` and reading it back via `as_str`
returns `s` exactly, byte for byte, with the original casing unmodified
(the construction is a pure relabelling; no operation mutates the
underlying characters). -/
theorem claim_C5 (s : List Char) :
    UncasedStr.as_str (UncasedStr.new s) = s := rfl

/-- C6: `starts_with` returns `true` iff the View is at least as long (in
bytes) as the prefix and the leading byte sub-slice of the prefix's length
is case-insensitively equal to the prefix; when the View is shorter the
length check short-circuits to `false` before any slicing; and on the
concrete examples `starts_with "MoOO" "moo" = true`,
`starts_with "Mo" "moo" = false`. -/
theorem claim_C6 :
    (∀ v p : List Char,
      starts_with v p = some true ↔
        byteLen p ≤ byteLen v ∧
          bytesEqIgnoreAsciiCase ((utf8Encode v).take (byteLen p))
            (utf8Encode p) = true) ∧
    (∀ v p : List Char, byteLen v < byteLen p → starts_with v p = some false) ∧
    starts_with ['M','o','O','O'] ['m','o','o'] = some true ∧
    starts_with ['M','o'] ['m','o','o'] = some false := by
  refine ⟨fun v p => ⟨?_, ?_⟩, fun v p h => ?_, by decide, by decide⟩
  · intro h
    unfold starts_with at h
    split_ifs at h with hle
    · cases htk : takeBytes v (byteLen p) with
      | none => rw [htk] at h; exact absurd h (by simp)
      | some w =>
        rw [htk] at h
        have huw : uncasedEq w p = true := by
          have h2 : some (uncasedEq w p) = some true := h
          injection h2
        obtain ⟨t, rfl, hlen⟩ := takeBytes_sound htk
        refine ⟨hle, ?_⟩
        rw [utf8Encode_append, ← hlen, List.take_left]
        exact huw
    · exact absurd h (by simp)
  · rintro ⟨hle, heq⟩
    have hmap := bytesEqIgnoreAsciiCase_iff_map.mp heq
    obtain ⟨w, hw, hwmap⟩ := takeBytes_of_fold_take hmap
    unfold starts_with
    rw [if_pos hle, hw]
    show some (uncasedEq w p) = some true
    exact congrArg some (bytesEqIgnoreAsciiCase_iff_map.mpr hwmap)
  · unfold starts_with
    rw [if_neg (by omega)]

/-- Witness for C6's short-circuit clause at `"Mo"` vs `"moo"`. -/
theorem claim_C6_witness :
    starts_with ['M','o'] ['m','o','o'] = some false :=
  claim_C6.2.1 ['M','o'] ['m','o','o'] (by decide)

/-- C7: bytes outside the ASCII letter ranges are left unchanged by the
byte fold used for equality and hashing, characters outside them are left
unchanged by the character fold used for ordering, and two strings that
differ only in a non-ASCII character are never case-insensitively equal. -/
theorem claim_C7 :
    (∀ b : Nat, ¬(65 ≤ b ∧ b ≤ 90) → ¬(97 ≤ b ∧ b ≤ 122) → u8ToLower b = b) ∧
    (∀ c : Char, ¬(65 ≤ c.toNat ∧ c.toNat ≤ 90) →
      ¬(97 ≤ c.toNat ∧ c.toNat ≤ 122) → charToLower c = c) ∧
    (∀ (xs ys : List Char) (c d : Char), c ≠ d →
      128 ≤ c.toNat → 128 ≤ d.toNat →
      uncasedEq (xs ++ c :: ys) (xs ++ d :: ys) = false) := by
  refine ⟨fun b h1 h2 => ?_, fun c h1 h2 => ?_, fun xs ys c d hne hc hd => ?_⟩
  · unfold u8ToLower
    rw [if_neg h1]
  · unfold charToLower
    rw [if_neg h1]
  · cases h : uncasedEq (xs ++ c :: ys) (xs ++ d :: ys) with
    | false => rfl
    | true =>
      exfalso
      have hfold := uncasedEq_iff_fold.mp h
      simp only [List.map_append, List.map_cons] at hfold
      obtain ⟨-, htl⟩ := List.append_inj hfold (by simp)
      have hcd : charToLower c = charToLower d := by
        injection htl
      have hc' : charToLower c = c := by
        unfold charToLower
        rw [if_neg (by omega)]
      have hd' : charToLower d = d := by
        unfold charToLower
        rw [if_neg (by omega)]
      rw [hc', hd'] at hcd
      exact hne hcd

/-- Witness for C7 at `"aé"` vs `"aß"`. -/
theorem claim_C7_witness :
    uncasedEq (['a'] ++ 'é' :: []) (['a'] ++ 'ß' :: []) = false :=
  claim_C7.2.2 ['a'] [] 'é' 'ß' (by decide) (by decide) (by decide)

/-- C8: converting a Value constructed borrowed from `s` into an owned
buffer (`Uncased::from_borrowed` then `Uncased::into_string`) yields `s`
exactly, with the original casing preserved. -/
theorem claim_C8 (s : List Char) :
    (UncasedVal.from_borrowed s).into_string = s := rfl

/-- C9: slicing a View with a byte range that is in order, in range, and on
character boundaries returns a View over exactly that byte sub-range of the
original text with casing preserved; for every other range the operation
panics (modelled as `none`) instead of truncating or wrapping. -/
theorem claim_C9 (s : List Char) (i j : Nat) :
    (i ≤ j → isCharBoundary s i → isCharBoundary s j →
      ∃ w, UncasedStr.index s i j = some w ∧
        utf8Encode w = ((utf8Encode s).drop i).take (j - i)) ∧
    (¬(i ≤ j ∧ isCharBoundary s i ∧ isCharBoundary s j) →
      UncasedStr.index s i j = none) := by
  constructor
  · intro hij hi hj
    obtain ⟨w, hw⟩ := index_complete hij hi hj
    exact ⟨w, hw, (index_sound hw).2.2.2⟩
  · intro hval
    cases h : UncasedStr.index s i j with
    | none => rfl
    | some w =>
      exfalso
      obtain ⟨h1, h2, h3, -⟩ := index_sound h
      exact hval ⟨h1, h2, h3⟩

/-- Witness for C9 slicing the two-byte character out of `"aéb"`. -/
theorem claim_C9_witness :
    ∃ w, UncasedStr.index ['a', 'é', 'b'] 1 3 = some w ∧
      utf8Encode w = ((utf8Encode ['a', 'é', 'b']).drop 1).take (3 - 1) :=
  (claim_C9 ['a', 'é', 'b'] 1 3).1 (by omega) ⟨1, by decide⟩ ⟨2, by decide⟩

/-- C10: comparison and equality agree on all Views, including non-ASCII
ones: `cmp` returns `Equal` exactly when case-insensitive equality holds,
so the character-level fold used by ordering and the byte-level fold used
by equality coincide on when two strings are equivalent. -/
theorem claim_C10 (a b : List Char) :
    uncasedCmp a b = .eq ↔ uncasedEq a b = true := by
  rw [uncasedCmp, cmpChars_eq_iff, uncasedEq_iff_fold]

/-- Witness for C10 at `"aB"` vs `"Ab"`. -/
theorem claim_C10_witness :
    uncasedCmp ['a','B'] ['A','b'] = .eq ↔ uncasedEq ['a','B'] ['A','b'] = true :=
  claim_C10 ['a','B'] ['A','b']

end Uncased
